import Mathlib

/-!
Verification of the document segmentation core of the Docs2App repository
(src/docs2app/analyzers/document_segmenter.py), shallowly embedded in Lean.

Modelling conventions:
* Python strings are modelled as `List Char`; only the ASCII behaviour of
  `str.strip`, `str.split`, `str.lower` and of the regex classes is modelled
  (all texts the claims exercise are ASCII apart from the two mojibake
  characters in one literal, which are carried through verbatim).
* Python floats are modelled as exact rationals (`ℚ`); all constants in the
  source (0.1, 0.3, 0.5, 0.6, 0.7, 1.0) are taken at their decimal value.
* Python ints are modelled as `Nat` (all indices in the source are
  non-negative).
* The five heading regexes are compiled with re.MULTILINE | re.IGNORECASE and
  applied with re.match to a single stripped line coming from text.split("\n"),
  so the line contains no newline; the matchers below implement exactly that
  case (the written-out backtracking of the patterns specialises to a
  deterministic scan on such lines).
* The classifier regexes are literal words, optionally with a final optional
  character (such as e?) or a final group (y|ies); each is represented by its
  list of literal alternatives in the order the Python engine tries them
  (greedy option first, alternation left to right).  re.findall counts
  non-overlapping matches scanning left to right, which `countMatches` mirrors.
-/

set_option maxHeartbeats 4000000
set_option maxRecDepth 4000

/-- Python str.strip / str.split whitespace (ASCII): space, tab, newline,
carriage return, vertical tab, form feed.  The Python regex class backslash-s
covers the same six ASCII characters. -/
def isPySpace (c : Char) : Bool :=
  c == ' ' || c == '\t' || c == '\n' || c == '\r' || c == '\x0b' || c == '\x0c'

/-- Python str.lower, ASCII fragment. -/
def pyLower (c : Char) : Char :=
  if 'A' ≤ c ∧ c ≤ 'Z' then Char.ofNat (c.toNat + 32) else c

/-- Python str.strip(): remove leading and trailing whitespace. -/
def pyStrip (l : List Char) : List Char :=
  ((l.dropWhile isPySpace).reverse.dropWhile isPySpace).reverse

/-- Python text.split("\n"): always at least one field, fields contain no
newline, fields joined with newline give back the text. -/
def splitOnNL : List Char → List (List Char)
  | [] => [[]]
  | '\n' :: rest =>
    [] :: splitOnNL rest
  | c :: rest =>
    match splitOnNL rest with
    | [] => [[c]]
    | p :: ps => (c :: p) :: ps

/-- Python text.split("\n\n"): leftmost, non-overlapping two-newline
separators. -/
def splitOnNN : List Char → List (List Char)
  | [] => [[]]
  | '\n' :: '\n' :: rest =>
    [] :: splitOnNN rest
  | c :: rest =>
    match splitOnNN rest with
    | [] => [[c]]
    | p :: ps => (c :: p) :: ps

/-- Python text.split() (no argument): maximal runs of non-whitespace, empty
fields discarded.  The recursion is driven by a fuel argument so that it is
structural; every step consumes at least one character, so fuel equal to the
length of the text is always sufficient. -/
def wsFuel : Nat → List Char → List (List Char)
  | 0, _ => []
  | _ + 1, [] => []
  | f + 1, c :: cs =>
    if isPySpace c then wsFuel f cs
    else
      (c :: cs.takeWhile (fun d => !isPySpace d)) ::
        wsFuel f (cs.dropWhile (fun d => !isPySpace d))

/-- Python text.split() on the whole text. -/
def pySplitWs (l : List Char) : List (List Char) := wsFuel l.length l

/-- len(text.split()) as used by the classifier's normalisation. -/
def wordCount (text : List Char) : Nat := (pySplitWs text).length

/-- Is `a` an initial segment of `l`? (used for literal regex alternatives). -/
def isPreOf : List Char → List Char → Bool
  | [], _ => true
  | _ :: _, [] => false
  | a :: as, b :: bs => a == b && isPreOf as bs

/-- A classifier regex, given by its literal alternatives in the order the
Python engine tries them at a position (greedy optional suffix first,
alternation left to right). -/
abbrev Pat := List (List Char)

/-- First alternative of the regex that matches at this position, returning
its length. -/
def firstAltAt (alts : Pat) (l : List Char) : Option Nat :=
  match alts with
  | [] => none
  | a :: rest => if isPreOf a l then some a.length else firstAltAt rest l

/-- The findall scan with an explicit fuel driving the recursion (every step
consumes at least one character, so fuel equal to the remaining length is
always sufficient): at each position try the alternatives; on a match, count
it and resume after it, else move one character right. -/
def cmFuel (alts : Pat) : Nat → List Char → Nat
  | 0, _ => 0
  | _ + 1, [] => 0
  | f + 1, c :: cs =>
    match firstAltAt alts (c :: cs) with
    | some n => 1 + cmFuel alts f (cs.drop (n - 1))
    | none => cmFuel alts f cs

/-- len(re.findall(pattern, l)): scan left to right, count non-overlapping
matches, resume after each match.  All alternatives in the table are
non-empty, so the Python empty-match rule never applies. -/
def countMatches (alts : Pat) (l : List Char) : Nat := cmFuel alts l.length l

/-- DocumentSegmenter.section_patterns, in declaration (= dict insertion)
order.  Each regex is expanded into its literal alternatives, e.g.
r"ziele?" becomes the alternatives "ziele", "ziel" and r"user stor(y|ies)"
becomes "user story", "user stories". -/
def sectionPatterns : List (String × List Pat) :=
  [ ("ziele",
      [ ["ziele".data, "ziel".data], ["objectives".data, "objective".data],
        ["goals".data, "goal".data], ["zweck".data], ["purpose".data],
        ["vision".data], ["mission".data] ]),
    ("anforderungen",
      [ ["anforderungen".data, "anforderunge".data],
        ["requirements".data, "requirement".data], ["spezifikation".data],
        ["specification".data], ["bedingungen".data], ["conditions".data] ]),
    ("features",
      [ ["features".data, "feature".data],
        ["funktionen".data, "funktione".data],
        ["functions".data, "function".data], ["capabilities".data],
        ["eigenschaften".data], ["merkmale".data] ]),
    ("technisch",
      [ ["technisch".data], ["technical".data], ["architektur".data],
        ["architecture".data], ["implementation".data],
        ["implementierung".data], ["system".data], ["infrastruktur".data] ]),
    ("user_stories",
      [ ["user story".data, "user stories".data], ["anwendungsfÃ¤lle".data],
        ["use cases".data, "use case".data], ["szenarien".data],
        ["scenarios".data, "scenario".data],
        ["workflows".data, "workflow".data] ]),
    ("api",
      [ ["api".data], ["schnittstelle".data], ["interface".data],
        ["endpoints".data, "endpoint".data], ["services".data, "service".data],
        ["rest".data], ["graphql".data] ]),
    ("daten",
      [ ["daten".data], ["data".data], ["database".data], ["datenbank".data],
        ["modell".data], ["model".data], ["schema".data], ["entities".data] ]) ]

/-- The summed raw match count of one category over the lowered text
(the score accumulation loop of _classify_text). -/
def rawScore (pats : List Pat) (l : List Char) : Nat :=
  (pats.map (fun p => countMatches p l)).sum

/-- The scores dict of _classify_text, as an association list in insertion
order: categories with raw score zero are absent, the others carry
min(score / (word_count * 0.1), 1.0). -/
def scoreTable (text : List Char) : List (String × ℚ) :=
  sectionPatterns.filterMap (fun cp =>
    let raw := rawScore cp.2 (text.map pyLower)
    if 0 < raw then
      some (cp.1, min ((raw : ℚ) / ((wordCount text : ℚ) * (1 / 10))) 1)
    else none)

/-- Python max(iterable, key=...): keep the current best, replace only on a
strictly larger key, so the first element attaining the maximum wins. -/
def pickBest (l : List (String × ℚ)) : Option (String × ℚ) :=
  match l with
  | [] => none
  | x :: xs => some (xs.foldl (fun b y => if b.2 < y.2 then y else b) x)

/-- DocumentSegmenter._classify_text. -/
def classify_text (text : List Char) : String × ℚ :=
  match pickBest (scoreTable text) with
  | none => ("general", 3 / 10)
  | some e => e

/-- DocumentSegmenter._classify_section. -/
def classify_section (title content : List Char) : String × ℚ :=
  let t := classify_text title
  let c := classify_text content
  if 1 / 2 < t.2 then (t.1, t.2 * (7 / 10) + c.2 * (3 / 10)) else c

/-- Heading regex 1, r"#{1,6}\s+(.+)$" anchored at the start: one to six hash
marks, at least one whitespace, then the rest of the line as the group. -/
def matchMarkdown (l : List Char) : Option (List Char) :=
  let hs := l.takeWhile (fun c => c == '#')
  let r1 := l.dropWhile (fun c => c == '#')
  let ws := r1.takeWhile isPySpace
  let r2 := r1.dropWhile isPySpace
  let g := r2.takeWhile (fun c => c ≠ '\n')
  if 1 ≤ hs.length ∧ hs.length ≤ 6 ∧ 1 ≤ ws.length ∧ g ≠ [] then some g
  else none

/-- Heading regex 2, digits, an optional dot, whitespace, then text; the
group is the whole match. -/
def matchNumbered (l : List Char) : Option (List Char) :=
  let ds := l.takeWhile Char.isDigit
  let r1 := l.dropWhile Char.isDigit
  let dotAndRest : List Char × List Char :=
    match r1 with
    | '.' :: t => (['.'], t)
    | _ => ([], r1)
  let ws := dotAndRest.2.takeWhile isPySpace
  let r3 := dotAndRest.2.dropWhile isPySpace
  let g := r3.takeWhile (fun c => c ≠ '\n')
  if ds ≠ [] ∧ ws ≠ [] ∧ g ≠ [] then some (ds ++ dotAndRest.1 ++ ws ++ g)
  else none

/-- Heading regex 3, the ALL-CAPS rule.  The source compiles it with
re.IGNORECASE, so the class written as A to Z matches both cases: the line
matches when it is at least 6 characters, starts with an ASCII letter of
either case, and the remaining characters are letters or whitespace. -/
def matchAllCaps (l : List Char) : Option (List Char) :=
  match l with
  | [] => none
  | c :: rest =>
    if c.isAlpha ∧ rest.all (fun d => d.isAlpha || isPySpace d) ∧
        6 ≤ (c :: rest).length then
      some (c :: rest)
    else none

/-- Heading regexes 4 and 5: text, a newline, then a run of the underline
character.  A line produced by text.split("\n") contains no newline, so on
such lines these two never match. -/
def matchUnderlined (u : Char) (l : List Char) : Option (List Char) :=
  let pre := l.takeWhile (fun c => c ≠ '\n')
  match l.dropWhile (fun c => c ≠ '\n') with
  | '\n' :: tail =>
    if pre ≠ [] ∧ tail ≠ [] ∧ tail.all (fun c => c == u) then some pre
    else none
  | _ => none

/-- DocumentSegmenter._detect_header: strip the line, try the five heading
regexes in order (returning the stripped group), then the underlined-header
neighbour check (returning the stripped line, possibly empty). -/
def detect_header (line : List Char) (lines : List (List Char))
    (index : Nat) : Option (List Char) :=
  let l := pyStrip line
  match matchMarkdown l with
  | some g => some (pyStrip g)
  | none =>
  match matchNumbered l with
  | some g => some (pyStrip g)
  | none =>
  match matchAllCaps l with
  | some g => some (pyStrip g)
  | none =>
  match matchUnderlined '=' l with
  | some g => some (pyStrip g)
  | none =>
  match matchUnderlined '-' l with
  | some g => some (pyStrip g)
  | none =>
    if index + 1 < lines.length then
      let nx := pyStrip (lines.getD (index + 1) [])
      if nx ≠ [] ∧ nx.all (fun c => c == '=' || c == '-' || c == '_') then
        some l
      else none
    else none

/-- _detect_header applied to line i of the line list, as the segmenter
loop does. -/
def headerAt (lines : List (List Char)) (i : Nat) : Option (List Char) :=
  detect_header (lines.getD i []) lines i

/-- Python truthiness of the header result inside _segment_by_headers:
a new section starts exactly when the detector returns a non-empty string. -/
def truthyHeader (lines : List (List Char)) (i : Nat) : Bool :=
  match headerAt lines i with
  | some g => !g.isEmpty
  | none => false

/-- The header label at a truthy line (the detector's returned string). -/
def headerTitle (lines : List (List Char)) (i : Nat) : List Char :=
  (headerAt lines i).getD []

/-- A closed header-based section (the dict appended to `sections` in
_segment_by_headers); `stop` is the "end" key. -/
structure HSection where
  title : List Char
  content : List Char
  start : Nat
  stop : Nat
deriving DecidableEq, Repr

/-- The open accumulating section of _segment_by_headers. -/
structure RawSec where
  title : List Char
  content : List (List Char)
  start : Nat
deriving DecidableEq, Repr

/-- Closing the open section at line e: join and strip its content. -/
def closeSec (c : RawSec) (e : Nat) : HSection :=
  ⟨c.title, pyStrip (List.intercalate ['\n'] c.content), c.start, e⟩

/-- The non-header branch of the loop body: append the raw line to the open
section, if any. -/
def pushLine (lines : List (List Char)) (st : List HSection × Option RawSec)
    (i : Nat) : List HSection × Option RawSec :=
  match st.2 with
  | some c => (st.1, some { c with content := c.content ++ [lines.getD i []] })
  | none => st

/-- One iteration of the _segment_by_headers loop at line index i. -/
def hdrStep (lines : List (List Char)) (st : List HSection × Option RawSec)
    (i : Nat) : List HSection × Option RawSec :=
  match headerAt lines i with
  | some g =>
    if g ≠ [] then
      match st.2 with
      | some c => (st.1 ++ [closeSec c i], some ⟨g, [], i⟩)
      | none => (st.1, some ⟨g, [], i⟩)
    else pushLine lines st i
  | none => pushLine lines st i

/-- DocumentSegmenter._segment_by_headers: fold the loop body over the line
indices, then flush the still-open section (with "end" = number of lines),
if any. -/
def segment_by_headers (text : List Char) : List HSection :=
  match (List.range (splitOnNL text).length).foldl
      (hdrStep (splitOnNL text)) ([], none) with
  | (secs, some c) => secs ++ [closeSec c (splitOnNL text).length]
  | (secs, none) => secs

/-- The record type produced per segment (the DocumentSection dataclass). -/
structure DocumentSection where
  title : List Char
  content : List Char
  section_type : String
  confidence : ℚ
  start_position : Nat
  end_position : Nat
deriving DecidableEq, Repr

/-- The DocumentSection built from one header-based section inside
segment_document. -/
def secOfHeader (s : HSection) : DocumentSection :=
  ⟨s.title, s.content, (classify_section s.title s.content).1,
    (classify_section s.title s.content).2, s.start, s.stop⟩

/-- The running buffer of _segment_by_patterns. -/
structure PatState where
  content : List (List Char)
  type : String
  confidence : ℚ
deriving DecidableEq, Repr

/-- The DocumentSection flushed from the buffer when k sections have already
been emitted (title "Section \x7bk+1\x7d", positions 0). -/
def flushPat (k : Nat) (cur : PatState) : DocumentSection :=
  ⟨("Section " ++ toString (k + 1)).data,
    List.intercalate ('\n' :: ['\n']) cur.content, cur.type, cur.confidence,
    0, 0⟩

/-- The paragraph loop of _segment_by_patterns. -/
def patLoop : List (List Char) → List DocumentSection → PatState →
    List DocumentSection
  | [], secs, cur =>
    if cur.content ≠ [] then secs ++ [flushPat secs.length cur] else secs
  | p :: ps, secs, cur =>
    let p' := pyStrip p
    if p' = [] then patLoop ps secs cur
    else
      let tc := classify_text p'
      if tc.1 ≠ "general" ∧ 6 / 10 < tc.2 then
        if cur.content ≠ [] then
          patLoop ps (secs ++ [flushPat secs.length cur]) ⟨[p'], tc.1, tc.2⟩
        else patLoop ps secs ⟨[p'], tc.1, tc.2⟩
      else patLoop ps secs { cur with content := cur.content ++ [p'] }

/-- DocumentSegmenter._segment_by_patterns. -/
def segment_by_patterns (text : List Char) : List DocumentSection :=
  patLoop (splitOnNN text) [] ⟨[], "general", 3 / 10⟩

/-- DocumentSegmenter.segment_document: header path when any header was
found, else the paragraph fallback. -/
def segment_document (text : List Char) : List DocumentSection :=
  let hs := segment_by_headers text
  if hs.isEmpty then segment_by_patterns text
  else hs.map secOfHeader

/-- The classifier as the specification words it (spec section 4.2), used as
the comparison point of the refinement claim C5: lower-case the text, sum the
match counts per category, discard zero scores, return ("general", 0.3) when
nothing scored, otherwise normalise each score by word_count * 0.1 capped at
1.0 and return the highest-scoring category with ties broken in favour of the
first-declared category (the first entry whose score is at least every
score). -/
def classifySpecWords (text : List Char) : String × ℚ :=
  let scoring := sectionPatterns.filterMap (fun cp =>
    let raw := rawScore cp.2 (text.map pyLower)
    if 0 < raw then
      some (cp.1, min ((raw : ℚ) / ((wordCount text : ℚ) * (1 / 10))) 1)
    else none)
  match scoring.find? (fun e => scoring.all (fun e' => decide (e'.2 ≤ e.2))) with
  | some e => e
  | none => ("general", 3 / 10)

/-- The lines of the list with indices in the interval from a to b. -/
def lineSeg (lines : List (List Char)) (a b : Nat) : List (List Char) :=
  (lines.drop a).take (b - a)

/-- Well-formedness of the closed-section list accumulated by the header
loop, ending at line index e: the sections chain (each end is the next
start), every section starts at a truthy header line, carries that header's
label as title and the stripped join of the strictly interior lines as
content, contains no further truthy header line, and no truthy header line
precedes the first section. -/
def SecsInv (lines : List (List Char)) (secs : List HSection) (e : Nat) :
    Prop :=
  List.Chain' (fun a b => a.stop = b.start) secs ∧
  (∀ s ∈ secs,
    s.start < s.stop ∧
    truthyHeader lines s.start = true ∧
    s.title = headerTitle lines s.start ∧
    s.content = pyStrip (List.intercalate ['\n']
      (lineSeg lines (s.start + 1) s.stop)) ∧
    ∀ j, s.start < j → j < s.stop → truthyHeader lines j = false) ∧
  (∀ h : secs ≠ [], (secs.getLast h).stop = e) ∧
  (∀ h : secs ≠ [], ∀ i < (secs.head h).start, truthyHeader lines i = false)

/-- Loop invariant of _segment_by_headers after the first n line indices have
been processed. -/
def StInv (lines : List (List Char)) (n : Nat) :
    List HSection × Option RawSec → Prop
  | (secs, none) => secs = [] ∧ ∀ i < n, truthyHeader lines i = false
  | (secs, some c) =>
    c.start < n ∧
    truthyHeader lines c.start = true ∧
    c.title = headerTitle lines c.start ∧
    c.content = lineSeg lines (c.start + 1) n ∧
    (∀ j, c.start < j → j < n → truthyHeader lines j = false) ∧
    SecsInv lines secs c.start ∧
    (secs = [] → ∀ i < c.start, truthyHeader lines i = false)

/-- Does the alternative begin with a non-whitespace character? -/
def headNonWs (a : List Char) : Bool :=
  match a with
  | [] => false
  | d :: _ => !isPySpace d

/-! ## Theorems -/

/-- C8: on the empty string, segment_document returns the empty section list
(and, being a total function of its input, it does not raise). -/
theorem c8_empty_input : segment_document ([] : List Char) = [] := by decide

/-- C2: the claim states the all-caps heading rule fires exactly on lines of
upper-case letters and spaces of length at least 6.  The source compiles the
rule with re.IGNORECASE, so the all-lowercase line "introduction" is also
matched by this rule and detected as a header, contradicting the claim; the
two examples of the claim ("INTRODUCTION" detected, "Hi" not) do hold. -/
theorem c2_allcaps_ignorecase :
    detect_header "INTRODUCTION".data
      ["INTRODUCTION".data, "Body text.".data] 0 =
      some ("INTRODUCTION".data) ∧
    detect_header "Hi".data ["Hi".data, "Body text.".data] 0 = none ∧
    matchAllCaps "introduction".data = some ("introduction".data) ∧
    detect_header "introduction".data
      ["introduction".data, "Body text.".data] 0 =
      some ("introduction".data) := by decide

/-- C3 counterexample: the one-space input is a non-empty string on which
segment_document returns no section at all (no header fires and the only
paragraph strips to empty). -/
theorem c3_counterexample :
    ([' '] : List Char) ≠ [] ∧ segment_document [' '] = [] := by decide

/-- C1 counterexample: on "x\n# H\nbody" the header detector fires (line 1),
yet line 0 belongs to no returned section: _segment_by_headers drops the
lines that precede the first detected header, so the sections do not cover
the whole input. -/
theorem c1_counterexample :
    (∃ i < (splitOnNL ("x\n# H\nbody".data)).length,
      truthyHeader (splitOnNL ("x\n# H\nbody".data)) i = true) ∧
    ¬ (∀ j < (splitOnNL ("x\n# H\nbody".data)).length,
        ∃ s ∈ segment_document ("x\n# H\nbody".data),
          s.start_position ≤ j ∧ j < s.end_position) := by decide

/-- C7: segment_document is a pure function of the input text (the embedding
is a total function reading only the fixed pattern tables), so two calls on
the same text return identical section lists. -/
theorem c7_deterministic (t₁ t₂ : List Char) (h : t₁ = t₂) :
    segment_document t₁ = segment_document t₂ := by rw [h]

/-- Witness for C7 at the concrete text "a". -/
theorem c7_deterministic_witness :
    ("a".data : List Char) = "a".data ∧
    segment_document "a".data = segment_document "a".data :=
  ⟨rfl, c7_deterministic "a".data "a".data rfl⟩

/-- A list with a non-whitespace character does not strip to empty. -/
theorem pyStrip_ne_nil {l : List Char} (h : ∃ c ∈ l, isPySpace c = false) :
    pyStrip l ≠ [] := by
  obtain ⟨c, hc, hws⟩ := h
  intro hnil
  unfold pyStrip at hnil
  rw [List.reverse_eq_nil_iff, List.dropWhile_eq_nil_iff] at hnil
  have h1 : ∀ x ∈ l.dropWhile isPySpace, isPySpace x = true := by
    intro x hx
    exact hnil x (List.mem_reverse.mpr hx)
  have h2 : ∀ x ∈ l, isPySpace x = true := by
    intro x hx
    rw [← List.takeWhile_append_dropWhile isPySpace l] at hx
    rcases List.mem_append.mp hx with hx | hx
    · exact List.mem_takeWhile_imp hx
    · exact h1 x hx
  simp [h2 c hc] at hws

/-- text.split("\n\n") always yields at least one paragraph. -/
theorem splitOnNN_ne_nil (l : List Char) : splitOnNN l ≠ [] := by
  induction l using splitOnNN.induct with
  | case1 => simp [splitOnNN]
  | case2 rest ih => simp [splitOnNN]
  | case3 d rest hg hnil ih => exact absurd hnil ih
  | case4 d rest hg p ps hps ih => simp [splitOnNN, hps]

/-- Every non-newline character of the text lands in one of the paragraphs
of text.split("\n\n"). -/
theorem mem_splitOnNN {c : Char} (hc : c ≠ '\n') :
    ∀ {l : List Char}, c ∈ l → ∃ p ∈ splitOnNN l, c ∈ p := by
  intro l
  induction l using splitOnNN.induct with
  | case1 => intro h; cases h
  | case2 rest ih =>
    intro h
    simp only [List.mem_cons] at h
    rcases h with rfl | rfl | h
    · exact absurd rfl hc
    · exact absurd rfl hc
    obtain ⟨p, hp, hcp⟩ := ih h
    refine ⟨p, ?_, hcp⟩
    simp only [splitOnNN]
    exact List.mem_cons_of_mem _ hp
  | case3 d rest hg hnil ih => exact absurd hnil (splitOnNN_ne_nil rest)
  | case4 d rest hg p ps hps ih =>
    have hred : splitOnNN (d :: rest) = (d :: p) :: ps := by
      simp [splitOnNN, hps]
    intro h
    simp only [List.mem_cons] at h
    rcases h with rfl | h
    · exact ⟨c :: p, by rw [hred]; exact List.mem_cons_self _ _,
        List.mem_cons_self _ _⟩
    · obtain ⟨q, hq, hcq⟩ := ih h
      rw [hps] at hq
      simp only [List.mem_cons] at hq
      rcases hq with rfl | hq
      · exact ⟨d :: q, by rw [hred]; exact List.mem_cons_self _ _,
          List.mem_cons_of_mem _ hcq⟩
      · exact ⟨q, by rw [hred]; exact List.mem_cons_of_mem _ hq, hcq⟩

/-- With enough fuel, a list containing a non-whitespace character splits
into at least one word. -/
theorem wsFuel_ne_nil :
    ∀ (f : Nat) (l : List Char), l.length ≤ f →
      (∃ c ∈ l, isPySpace c = false) → wsFuel f l ≠ [] := by
  intro f
  induction f with
  | zero =>
    intro l hl h
    obtain ⟨c, hc, _⟩ := h
    interval_cases hlen : l.length
    · rw [List.length_eq_zero] at hlen
      subst hlen
      cases hc
  | succ f ih =>
    intro l hl h
    obtain ⟨c, hc, hcws⟩ := h
    cases l with
    | nil => cases hc
    | cons d ds =>
      by_cases hw : isPySpace d
      · have hc2 : c ∈ ds := by
          simp only [List.mem_cons] at hc
          rcases hc with rfl | hc
          · rw [hw] at hcws; cases hcws
          · exact hc
        have := ih ds (by simp at hl; omega) ⟨c, hc2, hcws⟩
        simpa [wsFuel, hw] using this
      · simp [wsFuel, hw]

/-- A text with a non-whitespace character splits into at least one word. -/
theorem pySplitWs_ne_nil :
    ∀ {l : List Char}, (∃ c ∈ l, isPySpace c = false) → pySplitWs l ≠ [] := by
  intro l h
  exact wsFuel_ne_nil l.length l le_rfl h

/-- A non-whitespace character witnesses one in the original text through
str.lower (lower-casing sends whitespace to itself). -/
theorem exists_nonws_of_lower {text : List Char} {d : Char}
    (hd : d ∈ text.map pyLower) (hdws : isPySpace d = false) :
    ∃ c ∈ text, isPySpace c = false := by
  obtain ⟨c, hc, rfl⟩ := List.mem_map.mp hd
  refine ⟨c, hc, ?_⟩
  by_contra hcw
  have hcw2 : isPySpace c = true := by
    cases h : isPySpace c
    · exact absurd h hcw
    · rfl
  have hlow : isPySpace (pyLower c) = true := by
    simp only [isPySpace, Bool.or_eq_true, beq_iff_eq] at hcw2
    rcases hcw2 with ((((rfl | rfl) | rfl) | rfl) | rfl) | rfl <;> decide
  rw [hlow] at hdws
  cases hdws

/-- The paragraph loop emits at least one section when something non-trivial
is in flight: sections already emitted, a non-empty buffer, or a paragraph
that does not strip to empty. -/
theorem patLoop_ne_nil :
    ∀ (ps : List (List Char)) (secs : List DocumentSection) (cur : PatState),
      (secs ≠ [] ∨ cur.content ≠ [] ∨ ∃ p ∈ ps, pyStrip p ≠ []) →
      patLoop ps secs cur ≠ [] := by
  intro ps
  induction ps with
  | nil =>
    intro secs cur h
    simp only [patLoop]
    rcases h with h | h | h
    · split
      · simp
      · exact h
    · simp [h]
    · obtain ⟨p, hp, _⟩ := h
      cases hp
  | cons p ps ih =>
    intro secs cur h
    simp only [patLoop]
    by_cases hp : pyStrip p = []
    · rw [if_pos hp]
      apply ih
      rcases h with h | h | h
      · exact Or.inl h
      · exact Or.inr (Or.inl h)
      · obtain ⟨q, hq, hqs⟩ := h
        simp only [List.mem_cons] at hq
        rcases hq with rfl | hq
        · exact absurd hp hqs
        · exact Or.inr (Or.inr ⟨q, hq, hqs⟩)
    · rw [if_neg hp]
      split
      · split
        · exact ih _ _ (Or.inr (Or.inl (by simp)))
        · exact ih _ _ (Or.inr (Or.inl (by simp)))
      · exact ih _ _ (Or.inr (Or.inl (by simp)))

/-- C3: the claim quantifies over all non-empty inputs, but a non-empty
all-whitespace input produces no section (see the counterexample); the
amended claim: on every input containing at least one non-whitespace
character, segment_document returns at least one section. -/
theorem c3_amended_nonempty (text : List Char)
    (h : ∃ c ∈ text, isPySpace c = false) : segment_document text ≠ [] := by
  unfold segment_document
  by_cases hh : (segment_by_headers text).isEmpty
  · rw [if_pos hh]
    unfold segment_by_patterns
    apply patLoop_ne_nil
    refine Or.inr (Or.inr ?_)
    obtain ⟨c, hc, hws⟩ := h
    have hcn : c ≠ '\n' := by
      rintro rfl
      simp [isPySpace] at hws
    obtain ⟨p, hp, hcp⟩ := mem_splitOnNN hcn hc
    exact ⟨p, hp, pyStrip_ne_nil ⟨c, hcp, hws⟩⟩
  · rw [if_neg hh]
    simp only [ne_eq, List.map_eq_nil_iff]
    intro hnil
    rw [hnil] at hh
    exact hh rfl

/-- Witness for C3 (amended): the input "hi." contains a non-whitespace
character and yields a section list that is not empty. -/
theorem c3_amended_nonempty_witness :
    (∃ c ∈ ("hi.".data : List Char), isPySpace c = false) ∧
    segment_document "hi.".data ≠ [] :=
  ⟨by decide, c3_amended_nonempty "hi.".data (by decide)⟩

/-- Python max keeps an element of the iterable: the fold underlying
pickBest stays inside the list. -/
theorem foldl_best_mem :
    ∀ (xs : List (String × ℚ)) (x : String × ℚ),
      xs.foldl (fun b y => if b.2 < y.2 then y else b) x ∈ x :: xs := by
  intro xs
  induction xs with
  | nil => intro x; exact List.mem_cons_self _ _
  | cons y ys ih =>
    intro x
    simp only [List.foldl_cons]
    rcases List.mem_cons.mp (ih (if x.2 < y.2 then y else x)) with heq | hmem
    · rw [heq]
      split
      · exact List.mem_cons_of_mem _ (List.mem_cons_self _ _)
      · exact List.mem_cons_self _ _
    · exact List.mem_cons_of_mem _ (List.mem_cons_of_mem _ hmem)

/-- Every entry of the scores table carries a confidence in [0, 1] (it is a
minimum with 1 of a quotient of non-negative numbers). -/
theorem scoreTable_bounds {text : List Char} {e : String × ℚ}
    (he : e ∈ scoreTable text) : 0 ≤ e.2 ∧ e.2 ≤ 1 := by
  unfold scoreTable at he
  obtain ⟨cp, _, heq⟩ := List.mem_filterMap.mp he
  simp only at heq
  split at heq
  · cases heq
    constructor
    · apply le_min
      · apply div_nonneg
        · exact Nat.cast_nonneg _
        · apply mul_nonneg (Nat.cast_nonneg _)
          norm_num
      · norm_num
    · exact min_le_right _ _
  · cases heq

/-- The classifier confidence is always in [0, 1]. -/
theorem classify_text_bounds (text : List Char) :
    0 ≤ (classify_text text).2 ∧ (classify_text text).2 ≤ 1 := by
  unfold classify_text pickBest
  cases hst : scoreTable text with
  | nil => norm_num
  | cons x xs =>
    simp only
    have hmem := foldl_best_mem xs x
    rw [← hst] at hmem
    · exact scoreTable_bounds (by rw [hst]; exact (hst ▸ hmem))

/-- The combined section confidence is always in [0, 1]. -/
theorem classify_section_bounds (title content : List Char) :
    0 ≤ (classify_section title content).2 ∧
      (classify_section title content).2 ≤ 1 := by
  obtain ⟨ht0, ht1⟩ := classify_text_bounds title
  obtain ⟨hc0, hc1⟩ := classify_text_bounds content
  unfold classify_section
  simp only
  split
  · constructor
    · simp only
      nlinarith
    · simp only
      nlinarith
  · exact ⟨hc0, hc1⟩

/-- Confidence bounds propagate through the paragraph loop. -/
theorem patLoop_bounds :
    ∀ (ps : List (List Char)) (secs : List DocumentSection) (cur : PatState),
      (∀ s ∈ secs, 0 ≤ s.confidence ∧ s.confidence ≤ 1) →
      0 ≤ cur.confidence → cur.confidence ≤ 1 →
      ∀ s ∈ patLoop ps secs cur, 0 ≤ s.confidence ∧ s.confidence ≤ 1 := by
  intro ps
  induction ps with
  | nil =>
    intro secs cur hsecs hc0 hc1 s hs
    simp only [patLoop] at hs
    split at hs
    · rcases List.mem_append.mp hs with hs | hs
      · exact hsecs s hs
      · simp only [List.mem_singleton] at hs
        subst hs
        exact ⟨hc0, hc1⟩
    · exact hsecs s hs
  | cons p ps ih =>
    intro secs cur hsecs hc0 hc1 s hs
    simp only [patLoop] at hs
    split at hs
    · exact ih secs cur hsecs hc0 hc1 s hs
    · split at hs
      · split at hs
        · refine ih _ _ ?_ ?_ ?_ s hs
          · intro t ht
            rcases List.mem_append.mp ht with ht | ht
            · exact hsecs t ht
            · simp only [List.mem_singleton] at ht
              subst ht
              exact ⟨hc0, hc1⟩
          · exact (classify_text_bounds (pyStrip p)).1
          · exact (classify_text_bounds (pyStrip p)).2
        · refine ih _ _ hsecs ?_ ?_ s hs
          · exact (classify_text_bounds (pyStrip p)).1
          · exact (classify_text_bounds (pyStrip p)).2
      · refine ih _ _ hsecs ?_ ?_ s hs
        · exact hc0
        · exact hc1

/-- C4: every DocumentSection returned by segment_document, on either path,
has a confidence between 0.0 and 1.0. -/
theorem c4_confidence_bounds (text : List Char) (s : DocumentSection)
    (h : s ∈ segment_document text) :
    0 ≤ s.confidence ∧ s.confidence ≤ 1 := by
  unfold segment_document at h
  simp only at h
  split at h
  · unfold segment_by_patterns at h
    refine patLoop_bounds _ _ _ ?_ ?_ ?_ s h
    · intro t ht
      cases ht
    · norm_num
    · norm_num
  · obtain ⟨hsec, _, rfl⟩ := List.mem_map.mp h
    exact classify_section_bounds hsec.title hsec.content

/-- Witness for C4 at the concrete input "hello.", whose single returned
section is the general bucket. -/
theorem c4_confidence_bounds_witness :
    (segment_document "hello.".data).get ⟨0, by decide⟩ ∈
        segment_document "hello.".data ∧
    (0 ≤ ((segment_document "hello.".data).get ⟨0, by decide⟩).confidence ∧
      ((segment_document "hello.".data).get ⟨0, by decide⟩).confidence ≤ 1) :=
  ⟨List.get_mem _ _ _, c4_confidence_bounds "hello.".data _ (List.get_mem _ _ _)⟩


/-- Every alternative of every regex in the pattern table begins with a
non-whitespace character (checked by evaluation over the fixed table). -/
theorem sectionPatterns_headNonWs :
    ∀ cp ∈ sectionPatterns, ∀ p ∈ cp.2, ∀ a ∈ p, headNonWs a = true := by
  decide

/-- A successful alternative lookup comes from one of the alternatives. -/
theorem firstAltAt_some {alts : Pat} {l : List Char} {n : Nat}
    (h : firstAltAt alts l = some n) : ∃ a ∈ alts, isPreOf a l = true := by
  induction alts with
  | nil => cases h
  | cons a rest ih =>
    unfold firstAltAt at h
    split at h
    · exact ⟨a, List.mem_cons_self _ _, by assumption⟩
    · obtain ⟨b, hb, hpre⟩ := ih h
      exact ⟨b, List.mem_cons_of_mem _ hb, hpre⟩

/-- An initial-segment match forces the first characters to agree. -/
theorem isPreOf_head {d c : Char} {ds cs : List Char}
    (h : isPreOf (d :: ds) (c :: cs) = true) : d = c := by
  unfold isPreOf at h
  rcases Bool.and_eq_true_iff.mp h with ⟨h1, _⟩
  exact beq_iff_eq.mp h1

/-- If the findall scan found a match, the scanned text contains a
non-whitespace character (the head of the matched alternative). -/
theorem cmFuel_pos {alts : Pat}
    (halts : ∀ a ∈ alts, headNonWs a = true) :
    ∀ (f : Nat) (l : List Char), 0 < cmFuel alts f l →
      ∃ c ∈ l, isPySpace c = false := by
  intro f
  induction f with
  | zero =>
    intro l h
    simp [cmFuel] at h
  | succ f ih =>
    intro l h
    cases l with
    | nil => simp [cmFuel] at h
    | cons c cs =>
      rw [cmFuel] at h
      split at h
      · rename_i n hfa
        obtain ⟨a, ha, hpre⟩ := firstAltAt_some hfa
        have hhead := halts a ha
        cases a with
        | nil => cases hhead
        | cons d ds =>
          have hd : d = c := isPreOf_head hpre
          refine ⟨c, List.mem_cons_self _ _, ?_⟩
          subst hd
          simpa [headNonWs] using hhead
      · obtain ⟨d, hd, hdws⟩ := ih cs h
        exact ⟨d, List.mem_cons_of_mem _ hd, hdws⟩

/-- A positive category score comes from a positive count of one of its
regexes. -/
theorem rawScore_pos {pats : List Pat} {l : List Char}
    (h : 0 < rawScore pats l) : ∃ p ∈ pats, 0 < countMatches p l := by
  by_contra hall
  push_neg at hall
  have hz : (pats.map (fun p => countMatches p l)).sum = 0 := by
    rw [List.sum_eq_zero_iff]
    intro x hx
    obtain ⟨p, hp, rfl⟩ := List.mem_map.mp hx
    exact Nat.le_zero.mp (hall p hp)
  unfold rawScore at h
  omega

/-- C9: totality aside (every embedded operation is a total function), the
normalisation divisor word_count * 0.1 of _classify_text is non-zero
whenever it is reached: a category is normalised only when its raw score is
positive, every regex alternative starts with a non-whitespace character, so
the text then contains at least one word. -/
theorem c9_no_div_by_zero (text : List Char) (k : Nat)
    (hk : k < sectionPatterns.length)
    (hraw : 0 < rawScore (sectionPatterns.get ⟨k, hk⟩).2 (text.map pyLower)) :
    0 < wordCount text ∧ ((wordCount text : ℚ) * (1 / 10)) ≠ 0 := by
  obtain ⟨p, hp, hcm⟩ := rawScore_pos hraw
  have halts : ∀ a ∈ p, headNonWs a = true := by
    intro a ha
    exact sectionPatterns_headNonWs _ (List.get_mem _ _ _) p hp a ha
  obtain ⟨d, hd, hdws⟩ := cmFuel_pos halts _ _ hcm
  obtain ⟨c, hc, hcws⟩ := exists_nonws_of_lower hd hdws
  have hwc : 0 < wordCount text := by
    have hne := pySplitWs_ne_nil ⟨c, hc, hcws⟩
    unfold wordCount
    exact List.length_pos.mpr hne
  refine ⟨hwc, ?_⟩
  apply mul_ne_zero
  · exact_mod_cast Nat.pos_iff_ne_zero.mp hwc
  · norm_num

/-- Witness for C9: the text "api" makes the sixth category (api, index 5)
score, and its word count is positive. -/
theorem c9_no_div_by_zero_witness :
    5 < sectionPatterns.length ∧
    0 < rawScore (sectionPatterns.get ⟨5, by decide⟩).2
      (("api".data : List Char).map pyLower) ∧
    (0 < wordCount "api".data ∧
      ((wordCount "api".data : ℚ) * (1 / 10)) ≠ 0) :=
  ⟨by decide, by decide, c9_no_div_by_zero "api".data 5 (by decide) (by decide)⟩

/-- find? only looks at the predicate's values on the list's members. -/
theorem find?_congr_mem {α : Type} {p q : α → Bool} :
    ∀ (l : List α), (∀ a ∈ l, p a = q a) → l.find? p = l.find? q := by
  intro l
  induction l with
  | nil => intro _; rfl
  | cons a as ih =>
    intro h
    rw [List.find?_cons, List.find?_cons, h a (List.mem_cons_self _ _)]
    cases q a
    · exact ih fun b hb => h b (List.mem_cons_of_mem _ hb)
    · rfl

/-- Python's max over the scores (keep the first, replace only on strictly
larger) returns exactly the first entry whose value is greater than or equal
to every value in the list. -/
theorem pickBest_eq_firstMax :
    ∀ (xs : List (String × ℚ)) (x : String × ℚ),
      ((x :: xs).find? fun e => (x :: xs).all fun e2 => decide (e2.2 ≤ e.2)) =
        some (xs.foldl (fun b y => if b.2 < y.2 then y else b) x) := by
  intro xs
  induction xs with
  | nil =>
    intro x
    simp [List.find?_cons, List.all_cons]
  | cons y ys ih =>
    intro x
    by_cases hxy : x.2 < y.2
    · have hyx : decide (y.2 ≤ x.2) = false := by
        simp [not_le.mpr hxy]
      have hfx : ((x :: y :: ys).all fun e2 => decide (e2.2 ≤ x.2)) = false := by
        simp only [List.all_cons, hyx]
        simp
      rw [List.find?_cons, hfx]
      have hcongr :
          ((y :: ys).find? fun e =>
              (x :: y :: ys).all fun e2 => decide (e2.2 ≤ e.2)) =
            ((y :: ys).find? fun e =>
              (y :: ys).all fun e2 => decide (e2.2 ≤ e.2)) := by
        apply find?_congr_mem
        intro a ha
        simp only [List.all_cons]
        cases hmid : ((y :: ys).all fun e2 => decide (e2.2 ≤ a.2)) with
        | false =>
          simp only [List.all_cons] at hmid
          simp [hmid]
        | true =>
          have hy : y.2 ≤ a.2 := by
            have := List.all_eq_true.mp hmid y (List.mem_cons_self _ _)
            exact of_decide_eq_true this
          have hx : decide (x.2 ≤ a.2) = true :=
            decide_eq_true (le_of_lt (lt_of_lt_of_le hxy hy))
          simp only [List.all_cons] at hmid
          simp [hx, hmid]
      rw [hcongr, ih y]
      simp only [List.foldl_cons, if_pos hxy]
    · have hyx : y.2 ≤ x.2 := not_lt.mp hxy
      have hstep : (if x.2 < y.2 then y else x) = x := if_neg hxy
      have hPx :
          ((x :: y :: ys).all fun e2 => decide (e2.2 ≤ x.2)) =
            ((x :: ys).all fun e2 => decide (e2.2 ≤ x.2)) := by
        simp only [List.all_cons, decide_eq_true hyx]
        simp
      rw [List.find?_cons]
      cases hPx2 : ((x :: ys).all fun e2 => decide (e2.2 ≤ x.2)) with
      | true =>
        rw [hPx, hPx2]
        have := ih x
        rw [List.find?_cons, hPx2] at this
        have hsome := this
        simp only [List.foldl_cons, hstep]
        exact hsome.symm ▸ hsome
      | false =>
        rw [hPx, hPx2]
        have hPy : ((x :: y :: ys).all fun e2 => decide (e2.2 ≤ y.2)) = false := by
          cases hPy2 : ((x :: y :: ys).all fun e2 => decide (e2.2 ≤ y.2)) with
          | false => rfl
          | true =>
            exfalso
            have hall := List.all_eq_true.mp hPy2
            have hxy2 : x.2 ≤ y.2 :=
              of_decide_eq_true (hall x (List.mem_cons_self _ _))
            have heq : x.2 = y.2 := le_antisymm hxy2 hyx
            have : ((x :: ys).all fun e2 => decide (e2.2 ≤ x.2)) = true := by
              rw [List.all_eq_true]
              intro b hb
              rcases List.mem_cons.mp hb with rfl | hb
              · exact decide_eq_true le_rfl
              · have := hall b
                  (List.mem_cons_of_mem _ (List.mem_cons_of_mem _ hb))
                exact decide_eq_true (le_trans (of_decide_eq_true this) hyx)
            rw [this] at hPx2
            cases hPx2
        rw [List.find?_cons, hPy]
        have hcongr :
            (ys.find? fun e =>
                (x :: y :: ys).all fun e2 => decide (e2.2 ≤ e.2)) =
              (ys.find? fun e =>
                (x :: ys).all fun e2 => decide (e2.2 ≤ e.2)) := by
          apply find?_congr_mem
          intro a ha
          simp only [List.all_cons]
          cases hxa : decide (x.2 ≤ a.2) with
          | false => simp [hxa]
          | true =>
            have hya : decide (y.2 ≤ a.2) = true :=
              decide_eq_true (le_trans hyx (of_decide_eq_true hxa))
            simp [hxa, hya]
        rw [hcongr]
        have := ih x
        rw [List.find?_cons, hPx2] at this
        rw [this]
        simp only [List.foldl_cons, hstep]

/-- C5: _classify_text refines the specification's words: ("general", 0.3)
exactly when no category pattern matched, otherwise the highest normalised
score min(raw / (word_count * 0.1), 1.0) with ties broken in favour of the
first-declared category of the pattern table. -/
theorem c5_classify_text_spec (text : List Char) :
    classify_text text = classifySpecWords text := by
  have h : classifySpecWords text =
      (match (scoreTable text).find?
          (fun e => (scoreTable text).all fun e2 => decide (e2.2 ≤ e.2)) with
        | some e => e
        | none => ("general", 3 / 10)) := rfl
  rw [h]
  unfold classify_text pickBest
  cases hst : scoreTable text with
  | nil => rfl
  | cons x xs =>
    simp only
    rw [pickBest_eq_firstMax xs x]

/-- C6: on the header path every returned section takes its type and
confidence from _classify_section: when the title's classification
confidence exceeds 0.5 the title's winning category is used with confidence
0.7 * title + 0.3 * content, otherwise the content classification is used
outright. -/
theorem c6_header_classification (text : List Char) (s : DocumentSection)
    (hne : segment_by_headers text ≠ [])
    (hs : s ∈ segment_document text) :
    ∃ hsec ∈ segment_by_headers text,
      s.title = hsec.title ∧ s.content = hsec.content ∧
      s.start_position = hsec.start ∧ s.end_position = hsec.stop ∧
      (if 1 / 2 < (classify_text hsec.title).2 then
        s.section_type = (classify_text hsec.title).1 ∧
        s.confidence = (classify_text hsec.title).2 * (7 / 10) +
          (classify_text hsec.content).2 * (3 / 10)
      else
        s.section_type = (classify_text hsec.content).1 ∧
        s.confidence = (classify_text hsec.content).2) := by
  unfold segment_document at hs
  simp only at hs
  rw [if_neg (by simpa using hne)] at hs
  obtain ⟨hsec, hmem, rfl⟩ := List.mem_map.mp hs
  refine ⟨hsec, hmem, rfl, rfl, rfl, rfl, ?_⟩
  have hcsec : classify_section hsec.title hsec.content =
      if 1 / 2 < (classify_text hsec.title).2 then
        ((classify_text hsec.title).1,
          (classify_text hsec.title).2 * (7 / 10) +
            (classify_text hsec.content).2 * (3 / 10))
      else classify_text hsec.content := rfl
  by_cases hcond : 1 / 2 < (classify_text hsec.title).2
  · rw [if_pos hcond]
    constructor
    · show (classify_section hsec.title hsec.content).1 = _
      rw [hcsec, if_pos hcond]
    · show (classify_section hsec.title hsec.content).2 = _
      rw [hcsec, if_pos hcond]
  · rw [if_neg hcond]
    constructor
    · show (classify_section hsec.title hsec.content).1 = _
      rw [hcsec, if_neg hcond]
    · show (classify_section hsec.title hsec.content).2 = _
      rw [hcsec, if_neg hcond]

/-- Witness for C6 at a concrete two-line text whose all-caps first line is
a header: the hypotheses of the theorem hold at the first returned section. -/
theorem c6_header_classification_witness :
    segment_by_headers "ZIELE UND ZWECK\nsome content.".data ≠ [] ∧
    (segment_document "ZIELE UND ZWECK\nsome content.".data).get
        ⟨0, by decide⟩ ∈
      segment_document "ZIELE UND ZWECK\nsome content.".data ∧
    (∃ hsec ∈ segment_by_headers "ZIELE UND ZWECK\nsome content.".data,
      ((segment_document "ZIELE UND ZWECK\nsome content.".data).get
          ⟨0, by decide⟩).title = hsec.title ∧
      ((segment_document "ZIELE UND ZWECK\nsome content.".data).get
          ⟨0, by decide⟩).content = hsec.content ∧
      ((segment_document "ZIELE UND ZWECK\nsome content.".data).get
          ⟨0, by decide⟩).start_position = hsec.start ∧
      ((segment_document "ZIELE UND ZWECK\nsome content.".data).get
          ⟨0, by decide⟩).end_position = hsec.stop ∧
      (if 1 / 2 < (classify_text hsec.title).2 then
        ((segment_document "ZIELE UND ZWECK\nsome content.".data).get
            ⟨0, by decide⟩).section_type = (classify_text hsec.title).1 ∧
        ((segment_document "ZIELE UND ZWECK\nsome content.".data).get
            ⟨0, by decide⟩).confidence =
          (classify_text hsec.title).2 * (7 / 10) +
            (classify_text hsec.content).2 * (3 / 10)
      else
        ((segment_document "ZIELE UND ZWECK\nsome content.".data).get
            ⟨0, by decide⟩).section_type = (classify_text hsec.content).1 ∧
        ((segment_document "ZIELE UND ZWECK\nsome content.".data).get
            ⟨0, by decide⟩).confidence = (classify_text hsec.content).2)) :=
  ⟨by decide, List.get_mem _ _ _,
    c6_header_classification "ZIELE UND ZWECK\nsome content.".data _
      (by decide) (List.get_mem _ _ _)⟩

/-- A detector miss is not a truthy header. -/
theorem truthy_of_none {lines : List (List Char)} {i : Nat}
    (h : headerAt lines i = none) : truthyHeader lines i = false := by
  unfold truthyHeader
  rw [h]

/-- An empty detector result is falsy in the loop. -/
theorem truthy_of_some_nil {lines : List (List Char)} {i : Nat}
    (h : headerAt lines i = some []) : truthyHeader lines i = false := by
  unfold truthyHeader
  rw [h]
  rfl

/-- A non-empty detector result is a truthy header. -/
theorem truthy_of_some {lines : List (List Char)} {i : Nat} {g : List Char}
    (h : headerAt lines i = some g) (hg : g ≠ []) :
    truthyHeader lines i = true := by
  unfold truthyHeader
  rw [h]
  simpa using hg

/-- The header label at a detected line. -/
theorem headerTitle_of_some {lines : List (List Char)} {i : Nat}
    {g : List Char} (h : headerAt lines i = some g) :
    headerTitle lines i = g := by
  unfold headerTitle
  rw [h]
  rfl

/-- Appending line n extends a line segment ending at n by one. -/
theorem lineSeg_extend {lines : List (List Char)} {a n : Nat} (ha : a ≤ n)
    (hn : n < lines.length) :
    lineSeg lines a n ++ [lines.getD n []] = lineSeg lines a (n + 1) := by
  unfold lineSeg
  have h1 : n + 1 - a = (n - a) + 1 := by omega
  rw [h1, List.take_succ, List.getElem?_drop]
  have h2 : a + (n - a) = n := by omega
  rw [h2]
  have h3 : lines[n]? = some lines[n] := List.getElem?_eq_getElem hn
  rw [h3, List.getD_eq_getElem?_getD, h3]
  rfl

/-- The empty line segment. -/
theorem lineSeg_self (lines : List (List Char)) (a : Nat) :
    lineSeg lines a a = [] := by
  unfold lineSeg
  simp

/-- Closing the open section preserves the well-formedness of the closed
list, now ending at the closing index. -/
theorem secsinv_close {lines : List (List Char)} {n : Nat}
    {secs : List HSection} {c : RawSec}
    (h : StInv lines n (secs, some c)) :
    SecsInv lines (secs ++ [closeSec c n]) n := by
  obtain ⟨hstart, htruthy, htitle, hcontent, hnotr, hsecs, hfirst⟩ := h
  obtain ⟨hchain, hmem, hlast, hhead⟩ := hsecs
  refine ⟨?_, ?_, ?_, ?_⟩
  · rw [List.chain'_append]
    refine ⟨hchain, List.chain'_singleton _, ?_⟩
    intro x hx y hy
    simp only [List.head?_cons, Option.mem_def, Option.some.injEq] at hy
    subst hy
    cases hsecs2 : secs with
    | nil => simp [hsecs2] at hx
    | cons a as =>
      have hne : secs ≠ [] := by simp [hsecs2]
      rw [List.getLast?_eq_getLast _ hne] at hx
      simp only [Option.mem_def, Option.some.injEq] at hx
      subst hx
      exact hlast hne
  · intro s hs
    rcases List.mem_append.mp hs with hs | hs
    · exact hmem s hs
    · simp only [List.mem_singleton] at hs
      subst hs
      simp only [closeSec]
      exact ⟨hstart, htruthy, htitle, by rw [hcontent], hnotr⟩
  · intro h2
    rw [List.getLast_concat]
    rfl
  · intro h2 i hi
    cases hsecs2 : secs with
    | nil =>
      subst hsecs2
      simp only [List.nil_append] at hi ⊢
      have : (List.head [closeSec c n] (by simp)) = closeSec c n := rfl
      rw [show ([closeSec c n].head h2) = closeSec c n from rfl] at hi
      exact hfirst rfl i hi
    | cons a as =>
      have hne : secs ≠ [] := by simp [hsecs2]
      have hhead2 : (secs ++ [closeSec c n]).head h2 = secs.head hne := by
        rw [List.head_append]
        simp [hsecs2]
      rw [hhead2] at hi
      exact hhead hne i hi

/-- A non-header line preserves the loop invariant (the line is appended to
the open section's content, if any). -/
theorem stinv_push {lines : List (List Char)} {n : Nat}
    {secs : List HSection} {cur : Option RawSec} (hn : n < lines.length)
    (htr : truthyHeader lines n = false)
    (hinv : StInv lines n (secs, cur)) :
    StInv lines (n + 1) (pushLine lines (secs, cur) n) := by
  cases cur with
  | none =>
    obtain ⟨hsecs, hnot⟩ := hinv
    subst hsecs
    unfold pushLine
    refine ⟨rfl, ?_⟩
    intro i hi
    rcases Nat.lt_succ_iff_lt_or_eq.mp hi with hi | rfl
    · exact hnot i hi
    · exact htr
  | some c =>
    obtain ⟨hstart, htruthy, htitle, hcontent, hnotr, hsecsinv, hfirst⟩ := hinv
    unfold pushLine
    refine ⟨Nat.lt_succ_of_lt hstart, htruthy, htitle, ?_, ?_, hsecsinv,
      hfirst⟩
    · show c.content ++ [lines.getD n []] = lineSeg lines (c.start + 1) (n + 1)
      rw [hcontent]
      exact lineSeg_extend (by omega) hn
    · show ∀ j, c.start < j → j < n + 1 → truthyHeader lines j = false
      intro j hj1 hj2
      rcases Nat.lt_succ_iff_lt_or_eq.mp hj2 with hj2 | rfl
      · exact hnotr j hj1 hj2
      · exact htr

/-- One loop iteration preserves the invariant. -/
theorem stinv_step {lines : List (List Char)} {n : Nat}
    {secs : List HSection} {cur : Option RawSec}
    (hn : n < lines.length) (hinv : StInv lines n (secs, cur)) :
    StInv lines (n + 1) (hdrStep lines (secs, cur) n) := by
  cases hha : headerAt lines n with
  | none =>
    have hred : hdrStep lines (secs, cur) n = pushLine lines (secs, cur) n := by
      unfold hdrStep
      rw [hha]
    rw [hred]
    exact stinv_push hn (truthy_of_none hha) hinv
  | some g =>
    by_cases hg : g = []
    · subst hg
      have hred : hdrStep lines (secs, cur) n =
          pushLine lines (secs, cur) n := by
        unfold hdrStep
        rw [hha]
        rfl
      rw [hred]
      exact stinv_push hn (truthy_of_some_nil hha) hinv
    · have htr : truthyHeader lines n = true := truthy_of_some hha hg
      have hT : headerTitle lines n = g := headerTitle_of_some hha
      cases g with
      | nil => exact absurd rfl hg
      | cons gc gcs =>
      cases cur with
      | none =>
        obtain ⟨hsecs, hnot⟩ := hinv
        subst hsecs
        have hred : hdrStep lines (([] : List HSection), none) n =
            ([], some ⟨gc :: gcs, [], n⟩) := by
          unfold hdrStep
          rw [hha]
          rfl
        rw [hred]
        refine ⟨Nat.lt_succ_self n, htr, hT.symm,
          (lineSeg_self lines (n + 1)).symm, ?_, ?_, ?_⟩
        · show ∀ j, n < j → j < n + 1 → truthyHeader lines j = false
          intro j hj1 hj2
          exact absurd hj2 (by omega)
        · refine ⟨List.chain'_nil, ?_, ?_, ?_⟩
          · intro s hs
            cases hs
          · intro h
            exact absurd rfl h
          · intro h
            exact absurd rfl h
        · intro _ i hi
          exact hnot i hi
      | some c =>
        have hred : hdrStep lines (secs, some c) n =
            (secs ++ [closeSec c n], some ⟨gc :: gcs, [], n⟩) := by
          unfold hdrStep
          rw [hha]
          rfl
        rw [hred]
        refine ⟨Nat.lt_succ_self n, htr, hT.symm,
          (lineSeg_self lines (n + 1)).symm, ?_, secsinv_close hinv, ?_⟩
        · show ∀ j, n < j → j < n + 1 → truthyHeader lines j = false
          intro j hj1 hj2
          exact absurd hj2 (by omega)
        · intro habs
          exact absurd habs (by simp)

/-- The invariant holds after processing any prefix of the line indices. -/
theorem stinv_fold (lines : List (List Char)) :
    ∀ n, n ≤ lines.length →
      StInv lines n ((List.range n).foldl (hdrStep lines) ([], none)) := by
  intro n
  induction n with
  | zero =>
    intro _
    refine ⟨rfl, ?_⟩
    intro i hi
    exact absurd hi (by omega)
  | succ n ih =>
    intro hle
    rw [List.range_succ, List.foldl_append]
    have hinv := ih (by omega)
    cases hst : (List.range n).foldl (hdrStep lines) ([], none) with
    | mk secs cur =>
      rw [hst] at hinv
      simp only [List.foldl_cons, List.foldl_nil]
      exact stinv_step (by omega) hinv

/-- The output of _segment_by_headers is a well-formed chained section list
ending at the number of lines, and it is empty exactly when no line is a
truthy header. -/
theorem segment_by_headers_spec (text : List Char) :
    SecsInv (splitOnNL text) (segment_by_headers text)
      (splitOnNL text).length ∧
    (segment_by_headers text = [] ↔
      ∀ i < (splitOnNL text).length,
        truthyHeader (splitOnNL text) i = false) := by
  have hinv := stinv_fold (splitOnNL text) (splitOnNL text).length le_rfl
  cases hst : (List.range (splitOnNL text).length).foldl
      (hdrStep (splitOnNL text)) ([], none) with
  | mk secs cur =>
    rw [hst] at hinv
    cases cur with
    | none =>
      obtain ⟨hsecs, hnot⟩ := hinv
      subst hsecs
      have hsb : segment_by_headers text = [] := by
        unfold segment_by_headers
        rw [hst]
      rw [hsb]
      refine ⟨⟨List.chain'_nil, ?_, ?_, ?_⟩, ?_⟩
      · intro s hs
        cases hs
      · intro h
        exact absurd rfl h
      · intro h
        exact absurd rfl h
      · exact ⟨fun _ => hnot, fun _ => rfl⟩
    | some c =>
      have hsb : segment_by_headers text =
          secs ++ [closeSec c (splitOnNL text).length] := by
        unfold segment_by_headers
        rw [hst]
      rw [hsb]
      refine ⟨secsinv_close hinv, ?_, ?_⟩
      · intro habs
        exact absurd habs (by simp)
      · intro hall
        exfalso
        obtain ⟨hstart, htruthy, _⟩ := hinv
        have hfalse := hall c.start hstart
        rw [htruthy] at hfalse
        cases hfalse

/-- In a chained section list ending at e, every line index from the first
start up to e is covered by some section. -/
theorem chain_cover :
    ∀ (l : List HSection) (hne : l ≠ []) (e : Nat),
      List.Chain' (fun a b => a.stop = b.start) l →
      (l.getLast hne).stop = e →
      ∀ j, (l.head hne).start ≤ j → j < e →
        ∃ s ∈ l, s.start ≤ j ∧ j < s.stop := by
  intro l
  induction l with
  | nil =>
    intro hne
    exact absurd rfl hne
  | cons x xs ih =>
    intro hne e hchain hlast j hj1 hj2
    cases xs with
    | nil =>
      refine ⟨x, List.mem_cons_self _ _, by simpa using hj1, ?_⟩
      have hx : x.stop = e := by simpa using hlast
      omega
    | cons y ys =>
      simp only [List.head_cons] at hj1
      by_cases hjx : j < x.stop
      · exact ⟨x, List.mem_cons_self _ _, hj1, hjx⟩
      · have hrel : x.stop = y.start := (List.chain'_cons.mp hchain).1
        have hchain2 := (List.chain'_cons.mp hchain).2
        have hlast2 : ((y :: ys).getLast (by simp)).stop = e := by
          rw [← hlast, List.getLast_cons (by simp : (y :: ys) ≠ [])]
        have hhead2 : ((y :: ys).head (by simp)).start ≤ j := by
          simp only [List.head_cons]
          have := not_lt.mp hjx
          omega
        obtain ⟨s, hs, h1, h2⟩ := ih (by simp) e hchain2 hlast2 j hhead2 hj2
        exact ⟨s, List.mem_cons_of_mem _ hs, h1, h2⟩

/-- In a chained list of non-degenerate sections, every later section starts
at or after the head's end. -/
theorem chain_lb :
    ∀ (xs : List HSection) (x : HSection),
      List.Chain' (fun a b => a.stop = b.start) (x :: xs) →
      (∀ s ∈ x :: xs, s.start < s.stop) →
      ∀ t ∈ xs, x.stop ≤ t.start := by
  intro xs
  induction xs with
  | nil =>
    intro x _ _ t ht
    cases ht
  | cons y ys ih =>
    intro x hchain hlt t ht
    have hrel : x.stop = y.start := (List.chain'_cons.mp hchain).1
    rcases List.mem_cons.mp ht with rfl | ht
    · omega
    · have hy := ih y (List.chain'_cons.mp hchain).2
        (fun s hs => hlt s (List.mem_cons_of_mem _ hs)) t ht
      have hylt := hlt y (List.mem_cons_of_mem _ (List.mem_cons_self _ _))
      omega

/-- In a chained list of non-degenerate sections, a line index lies in at
most one section's interval. -/
theorem chain_unique :
    ∀ (l : List HSection),
      List.Chain' (fun a b => a.stop = b.start) l →
      (∀ s ∈ l, s.start < s.stop) →
      ∀ j, ∀ s ∈ l, ∀ t ∈ l,
        s.start ≤ j → j < s.stop → t.start ≤ j → j < t.stop → s = t := by
  intro l
  induction l with
  | nil =>
    intro _ _ j s hs
    cases hs
  | cons x xs ih =>
    intro hchain hlt j s hs t ht hs1 hs2 ht1 ht2
    rcases List.mem_cons.mp hs with hs0 | hs
    · rcases List.mem_cons.mp ht with ht0 | ht
      · rw [hs0, ht0]
      · exfalso
        have hlb := chain_lb xs x hchain hlt t ht
        rw [hs0] at hs2
        omega
    · rcases List.mem_cons.mp ht with ht0 | ht
      · exfalso
        have hlb := chain_lb xs x hchain hlt s hs
        rw [ht0] at ht2
        omega
      · exact ih hchain.tail (fun u hu => hlt u (List.mem_cons_of_mem _ hu)) j
          s hs t ht hs1 hs2 ht1 ht2

/-- In a chained list of non-degenerate sections, the head has the least
start. -/
theorem head_start_le :
    ∀ (l : List HSection) (hne : l ≠ []),
      List.Chain' (fun a b => a.stop = b.start) l →
      (∀ s ∈ l, s.start < s.stop) →
      ∀ s ∈ l, (l.head hne).start ≤ s.start := by
  intro l hne hchain hlt s hs
  cases l with
  | nil => exact absurd rfl hne
  | cons x xs =>
    simp only [List.head_cons]
    rcases List.mem_cons.mp hs with rfl | hs
    · exact le_rfl
    · have h1 := chain_lb xs x hchain hlt s hs
      have h2 := hlt x (List.mem_cons_self _ _)
      omega

/-- Chained non-degenerate sections have strictly increasing starts. -/
theorem chain_lt_of_chain_eq :
    ∀ (l : List HSection),
      List.Chain' (fun a b => a.stop = b.start) l →
      (∀ s ∈ l, s.start < s.stop) →
      List.Chain' (fun a b => a.start < b.start) l := by
  intro l
  induction l with
  | nil =>
    intro _ _
    exact List.chain'_nil
  | cons x xs ih =>
    intro hchain hlt
    cases xs with
    | nil => exact List.chain'_singleton _
    | cons y ys =>
      rw [List.chain'_cons] at hchain ⊢
      refine ⟨?_, ih hchain.2 fun s hs => hlt s (List.mem_cons_of_mem _ hs)⟩
      have h1 := hlt x (List.mem_cons_self _ _)
      have h2 := hchain.1
      omega

/-- On the header path, segment_document classifies and repacks the header
sections one for one. -/
theorem segment_document_header (text : List Char)
    (hne : segment_by_headers text ≠ []) :
    segment_document text = (segment_by_headers text).map secOfHeader := by
  show (if (segment_by_headers text).isEmpty then segment_by_patterns text
    else (segment_by_headers text).map secOfHeader) = _
  rw [if_neg (by simpa using hne)]

/-- C10: on the header path, every returned section has start strictly below
end, ends equal the next section's start, starts strictly increase, and the
last end is the total number of lines. -/
theorem c10_header_positions (text : List Char)
    (hne : segment_by_headers text ≠ []) :
    (∀ s ∈ segment_document text, s.start_position < s.end_position) ∧
    List.Chain' (fun a b => a.end_position = b.start_position)
      (segment_document text) ∧
    List.Chain' (fun a b => a.start_position < b.start_position)
      (segment_document text) ∧
    ∀ z ∈ (segment_document text).getLast?,
      z.end_position = (splitOnNL text).length := by
  obtain ⟨⟨hchain, hmem, hlast, hhead⟩, hiff⟩ := segment_by_headers_spec text
  have hdoc := segment_document_header text hne
  have hlt : ∀ s ∈ segment_by_headers text, s.start < s.stop :=
    fun s hs => (hmem s hs).1
  refine ⟨?_, ?_, ?_, ?_⟩
  · intro s hs
    rw [hdoc] at hs
    obtain ⟨h, hh, rfl⟩ := List.mem_map.mp hs
    exact (hmem h hh).1
  · rw [hdoc, List.chain'_map]
    exact hchain
  · rw [hdoc, List.chain'_map]
    exact chain_lt_of_chain_eq _ hchain hlt
  · intro z hz
    rw [hdoc, List.getLast?_map] at hz
    rw [List.getLast?_eq_getLast _ hne] at hz
    simp only [Option.map_some', Option.mem_def, Option.some.injEq] at hz
    subst hz
    exact hlast hne

/-- Witness for C10 at a four-line text with markdown headers at lines 0 and
2. -/
theorem c10_header_positions_witness :
    segment_by_headers "# Alpha\ntext.\n# Beta\nmore.".data ≠ [] ∧
    ((∀ s ∈ segment_document "# Alpha\ntext.\n# Beta\nmore.".data,
        s.start_position < s.end_position) ∧
      List.Chain' (fun a b => a.end_position = b.start_position)
        (segment_document "# Alpha\ntext.\n# Beta\nmore.".data) ∧
      List.Chain' (fun a b => a.start_position < b.start_position)
        (segment_document "# Alpha\ntext.\n# Beta\nmore.".data) ∧
      ∀ z ∈ (segment_document "# Alpha\ntext.\n# Beta\nmore.".data).getLast?,
        z.end_position =
          (splitOnNL ("# Alpha\ntext.\n# Beta\nmore.".data)).length) :=
  ⟨by decide, c10_header_positions "# Alpha\ntext.\n# Beta\nmore.".data
    (by decide)⟩

/-- C1 (amended): when the header detector fires on some line, the returned
sections tile the line range from the first truthy header line to the end of
the input: every such line lies in exactly one section's
start/end interval, lines before the first header lie in none (they are
dropped), the section ends chain, the last end is the number of lines, and
each section's content is the stripped newline-join of the lines strictly
between its header line and its end, the header line itself appearing as
the title. -/
theorem c1_amended_cover (text : List Char)
    (hfire : ∃ i, i < (splitOnNL text).length ∧
      truthyHeader (splitOnNL text) i = true) :
    segment_document text ≠ [] ∧
    List.Chain' (fun a b => a.end_position = b.start_position)
      (segment_document text) ∧
    (∀ a ∈ (segment_document text).head?,
      truthyHeader (splitOnNL text) a.start_position = true ∧
      (∀ i < a.start_position, truthyHeader (splitOnNL text) i = false) ∧
      (∀ j < (splitOnNL text).length, a.start_position ≤ j →
        ∃ s ∈ segment_document text,
          (s.start_position ≤ j ∧ j < s.end_position) ∧
          ∀ t ∈ segment_document text,
            t.start_position ≤ j → j < t.end_position → t = s) ∧
      (∀ j < a.start_position, ∀ s ∈ segment_document text,
        ¬(s.start_position ≤ j ∧ j < s.end_position))) ∧
    (∀ z ∈ (segment_document text).getLast?,
      z.end_position = (splitOnNL text).length) ∧
    (∀ s ∈ segment_document text,
      s.title = headerTitle (splitOnNL text) s.start_position ∧
      s.content = pyStrip (List.intercalate ['\n']
        (lineSeg (splitOnNL text) (s.start_position + 1) s.end_position))) := by
  obtain ⟨⟨hchain, hmem, hlast, hhead⟩, hiff⟩ := segment_by_headers_spec text
  have hne : segment_by_headers text ≠ [] := by
    intro h0
    obtain ⟨i, hi, htr⟩ := hfire
    have hf := (hiff.mp h0) i hi
    rw [htr] at hf
    cases hf
  have hdoc := segment_document_header text hne
  have hlt : ∀ s ∈ segment_by_headers text, s.start < s.stop :=
    fun s hs => (hmem s hs).1
  refine ⟨?_, ?_, ?_, ?_, ?_⟩
  · rw [hdoc]
    simp only [ne_eq, List.map_eq_nil_iff]
    exact hne
  · rw [hdoc, List.chain'_map]
    exact hchain
  · intro a ha
    rw [hdoc, List.head?_map, List.head?_eq_head hne] at ha
    simp only [Option.map_some', Option.mem_def, Option.some.injEq] at ha
    subst ha
    have hmem0 : (segment_by_headers text).head hne ∈ segment_by_headers text :=
      List.head_mem hne
    refine ⟨(hmem _ hmem0).2.1, ?_, ?_, ?_⟩
    · exact fun i hi => hhead hne i hi
    · intro j hj hja
      obtain ⟨s', hs', h1, h2⟩ :=
        chain_cover _ hne _ hchain (hlast hne) j hja hj
      refine ⟨secOfHeader s', ?_, ⟨h1, h2⟩, ?_⟩
      · rw [hdoc]
        exact List.mem_map_of_mem _ hs'
      · intro t ht ht1 ht2
        rw [hdoc] at ht
        obtain ⟨t', ht', rfl⟩ := List.mem_map.mp ht
        have heq : t' = s' :=
          chain_unique _ hchain hlt j t' ht' s' hs' ht1 ht2 h1 h2
        rw [heq]
    · intro j hj s hs
      rw [hdoc] at hs
      obtain ⟨s', hs', rfl⟩ := List.mem_map.mp hs
      have hle := head_start_le _ hne hchain hlt s' hs'
      rintro ⟨hc1, _⟩
      have hc2 : s'.start ≤ j := hc1
      have hc3 : ((segment_by_headers text).head hne).start ≤ s'.start := hle
      have hb1 : (secOfHeader ((segment_by_headers text).head hne)).start_position
          = ((segment_by_headers text).head hne).start := rfl
      omega
  · intro z hz
    rw [hdoc, List.getLast?_map, List.getLast?_eq_getLast _ hne] at hz
    simp only [Option.map_some', Option.mem_def, Option.some.injEq] at hz
    subst hz
    exact hlast hne
  · intro s hs
    rw [hdoc] at hs
    obtain ⟨s', hs', rfl⟩ := List.mem_map.mp hs
    obtain ⟨_, _, htitle, hcontent, _⟩ := hmem s' hs'
    exact ⟨htitle, hcontent⟩

/-- Witness for C1 (amended) at a five-line text with all-caps headers at
lines 1 and 3 and a dropped leading line. -/
theorem c1_amended_cover_witness :
    (∃ i, i < (splitOnNL
        ("x.\nHEADER ONE\nbody.\nHEADER TWO\ntail.".data)).length ∧
      truthyHeader (splitOnNL
        ("x.\nHEADER ONE\nbody.\nHEADER TWO\ntail.".data)) i = true) ∧
    (segment_document "x.\nHEADER ONE\nbody.\nHEADER TWO\ntail.".data ≠ [] ∧
    List.Chain' (fun a b => a.end_position = b.start_position)
      (segment_document "x.\nHEADER ONE\nbody.\nHEADER TWO\ntail.".data) ∧
    (∀ a ∈ (segment_document
        "x.\nHEADER ONE\nbody.\nHEADER TWO\ntail.".data).head?,
      truthyHeader (splitOnNL "x.\nHEADER ONE\nbody.\nHEADER TWO\ntail.".data)
        a.start_position = true ∧
      (∀ i < a.start_position,
        truthyHeader (splitOnNL
          "x.\nHEADER ONE\nbody.\nHEADER TWO\ntail.".data) i = false) ∧
      (∀ j < (splitOnNL
          "x.\nHEADER ONE\nbody.\nHEADER TWO\ntail.".data).length,
        a.start_position ≤ j →
        ∃ s ∈ segment_document "x.\nHEADER ONE\nbody.\nHEADER TWO\ntail.".data,
          (s.start_position ≤ j ∧ j < s.end_position) ∧
          ∀ t ∈ segment_document
              "x.\nHEADER ONE\nbody.\nHEADER TWO\ntail.".data,
            t.start_position ≤ j → j < t.end_position → t = s) ∧
      (∀ j < a.start_position,
        ∀ s ∈ segment_document "x.\nHEADER ONE\nbody.\nHEADER TWO\ntail.".data,
          ¬(s.start_position ≤ j ∧ j < s.end_position))) ∧
    (∀ z ∈ (segment_document
        "x.\nHEADER ONE\nbody.\nHEADER TWO\ntail.".data).getLast?,
      z.end_position = (splitOnNL
        "x.\nHEADER ONE\nbody.\nHEADER TWO\ntail.".data).length) ∧
    (∀ s ∈ segment_document "x.\nHEADER ONE\nbody.\nHEADER TWO\ntail.".data,
      s.title = headerTitle (splitOnNL
        "x.\nHEADER ONE\nbody.\nHEADER TWO\ntail.".data) s.start_position ∧
      s.content = pyStrip (List.intercalate ['\n']
        (lineSeg (splitOnNL "x.\nHEADER ONE\nbody.\nHEADER TWO\ntail.".data)
          (s.start_position + 1) s.end_position)))) :=
  ⟨by decide,
    c1_amended_cover "x.\nHEADER ONE\nbody.\nHEADER TWO\ntail.".data
      (by decide)⟩
